import Mathlib

/-!
# Verification of the lighthouse i18n core (`src/lighthouse-core/lib/i18n/i18n.js`)

This file is a shallow embedding of the message-instance registry, the
reference-token codec, the value preprocessing and formatting pipeline, the
locale lookup and the report-path formatter of the repository, together with
proofs settling the frozen claims about them.

Modelling conventions:
* JavaScript strings are Lean `String`s; the regex machinery works on their
  `List Char` data.  JavaScript's `.` in a regex matches every character
  except the line terminators `\n`, `\r`, U+2028 and U+2029; `\d` is `[0-9]`.
* JavaScript numbers that the preprocessing rewrites act on are modelled as
  rationals (`ℚ`); `NaN`/`undefined` reads are modelled by `Option ℚ` with
  `none` for the non-numeric result, and `Math.round` is `⌊x + 1/2⌋`
  (round half toward +∞), which is its semantics on finite values.
* Fallible code returns `Except I18nError`; a JavaScript `TypeError` raised
  by reading a property of `undefined` is the `typeError` constructor.
* The process-wide `Map` of message instances is a total function from keys
  to (possibly empty) instance lists, matching the source's
  `_icuMessageInstanceMap.get(id) || []` access pattern, which never
  distinguishes an absent key from a key bound to an empty array.
-/

namespace I18n

/-! ## Characters, digits, decimal numerals -/

/-- The JavaScript regex line terminators: `.` matches any character except
these (the regexes in the source are built from `.`, `\d` and literals). -/
def isLineTerm (c : Char) : Bool :=
  decide (c = '\n' ∨ c = '\r' ∨ c = '\u2028' ∨ c = '\u2029')

/-- JavaScript `\d`, i.e. exactly the ASCII digits `[0-9]`. -/
def isDigitChar (c : Char) : Bool :=
  decide ('0' ≤ c ∧ c ≤ '9')

/-- A nonempty run of ASCII digits: what `\d+` (anchored on both sides)
accepts. -/
def isDigitRun (l : List Char) : Bool :=
  !l.isEmpty && l.all isDigitChar

/-- Value of a decimal digit character. -/
def digitVal (c : Char) : Nat := c.toNat - '0'.toNat

/-- The number denoted by a big-endian decimal digit string; this is what
JavaScript's `Number(...)` yields on a string of digits. -/
def digitsToNat (l : List Char) : Nat :=
  l.foldl (fun a c => a * 10 + digitVal c) 0

/-- The decimal digit character for `d < 10`. -/
def digitChar (d : Nat) : Char := Char.ofNat (48 + d)

/-- Fuel-driven worker for `natToDecimal` (structural recursion so that the
kernel can evaluate it); `fuel ≥ n` makes it total on `n`. -/
def natToDecimalAux : Nat → Nat → List Char
  | 0, _ => []
  | fuel + 1, n =>
    if n < 10 then [digitChar n]
    else natToDecimalAux fuel (n / 10) ++ [digitChar (n % 10)]

/-- Big-endian decimal numeral of a natural number, as JavaScript's template
interpolation `${index}` renders a (safe) non-negative integer. -/
def natToDecimal (n : Nat) : List Char :=
  natToDecimalAux (n + 1) n

/-! ## The two regexes of the source

`MESSAGE_INSTANCE_ID_REGEX = /(.* \| .*) # (\d+)$/` and
`MESSAGE_INSTANCE_ID_QUICK_REGEX = / # \d+$/` (i18n.js lines 17–19).
Both are unanchored at the front, so the engine searches for the leftmost
starting position; `*` and `+` are greedy with backtracking; `$` (without
the `m` flag) matches only at the very end of the input.  The functions
below implement exactly that backtracking search for these two patterns:
in each step the "extend the `.*`" alternative is preferred (greedy) and
the following literal is tried only if extending fails. -/

/-- Option alternative used to spell out the backtracking preference order. -/
def orElseOpt (a b : Option α) : Option α :=
  match a with
  | some r => some r
  | none => b

/-- Matches `# \d+` against the *whole* remaining input (the leading space
has already been consumed by the caller): the suffix of both regexes after
the separator's space, with `$` forcing the digit run to reach the end.
Returns the digit run. -/
def tailDigits : List Char → Option (List Char)
  | c1 :: c2 :: ds => if c1 = '#' ∧ c2 = ' ' ∧ isDigitRun ds = true then some ds else none
  | _ => none

/-- `MESSAGE_INSTANCE_ID_QUICK_REGEX.test`: searches ` # \d+$` from every
position. -/
def quickSearch : List Char → Bool
  | [] => false
  | c :: rest => (if c = ' ' then (tailDigits rest).isSome else false) || quickSearch rest

/-- Matches `.* # (\d+)$` (the part of the full regex after ` | `) against
the whole remaining input, with the `.*` greedy.  Returns the text matched
by that `.*` together with the digit group. -/
def matchTailGreedy : List Char → Option (List Char × List Char)
  | [] => none
  | c :: rest =>
    orElseOpt
      (if isLineTerm c then none
       else (matchTailGreedy rest).map (fun p => (c :: p.1, p.2)))
      (if c = ' ' then (tailDigits rest).map (fun ds => (([] : List Char), ds)) else none)

/-- Matches `| .* # (\d+)$` when the caller has just consumed the space
before the `|`.  Returns (text from the `|` on that lies inside group 1,
digit group). -/
def pipeTail : List Char → Option (List Char × List Char)
  | c1 :: c2 :: rest2 =>
    if c1 = '|' ∧ c2 = ' ' then
      (matchTailGreedy rest2).map (fun p => ('|' :: ' ' :: p.1, p.2))
    else none
  | _ => none

/-- Matches `(.* \| .*) # (\d+)$` at a fixed starting position, both `.*`
greedy.  Returns (group 1, group 2). -/
def matchHeadGreedy : List Char → Option (List Char × List Char)
  | [] => none
  | c :: rest =>
    orElseOpt
      (if isLineTerm c then none
       else (matchHeadGreedy rest).map (fun p => (c :: p.1, p.2)))
      (if c = ' ' then (pipeTail rest).map (fun p => (' ' :: p.1, p.2)) else none)

/-- `s.match(MESSAGE_INSTANCE_ID_REGEX)`: leftmost starting position wins;
returns the two capture groups. -/
def regexMatchICU : List Char → Option (List Char × List Char)
  | [] => none
  | c :: rest => orElseOpt (matchHeadGreedy (c :: rest)) (regexMatchICU rest)

/-- `MESSAGE_INSTANCE_ID_REGEX.test` (i18n.js line 17). -/
def fullRegexTest (s : String) : Bool :=
  (regexMatchICU s.data).isSome

/-- `MESSAGE_INSTANCE_ID_QUICK_REGEX.test` (i18n.js line 19). -/
def quickRegexTest (s : String) : Bool :=
  quickSearch s.data

/-- `isIcuMessage` (i18n.js lines 299–302): the quick suffix pre-filter
conjoined with the full regex. -/
def isIcuMessage (icuMessageIdOrRawString : String) : Bool :=
  quickRegexTest icuMessageIdOrRawString && fullRegexTest icuMessageIdOrRawString

/-- The token rendering shared by `getMessageInstanceIdFn` (i18n.js
line 288): `` `${icuMessageId} # ${indexOfInstance}` ``. -/
def encodeToken (icuMessageId : String) (index : Nat) : String :=
  icuMessageId ++ " # " ++ String.mk (natToDecimal index)

/-- The decoding performed by `_resolveIcuMessageInstanceId` (i18n.js lines
337–342): match the full regex, take group 1 as the message key and
`Number(group 2)` as the instance index. -/
def decodeToken (s : String) : Option (String × Nat) :=
  (regexMatchICU s.data).map (fun p => (String.mk p.1, digitsToNat p.2))

/-- The token shape asserted by the spec, read literally ("anything
containing a `\x20|\x20` separator, followed by `\x20#\x20` and a run of
digits ending the string"): this is the spec's wording, to be compared with
what the source's regexes accept. -/
def specTokenShape (s : String) : Prop :=
  ∃ x d : String, s = x ++ " # " ++ d ∧ (∃ p q : String, x = p ++ " | " ++ q) ∧
    d ≠ "" ∧ ∀ c ∈ d.data, isDigitChar c = true

/-- The token shape the source's regexes actually accept: the segment
between the matched `\x20|\x20` separator and the trailing `\x20#\x20<digits>`
must not contain a line terminator (JavaScript `.` does not match them),
while everything before that separator is unconstrained. -/
def lineTokenShape (s : String) : Prop :=
  ∃ p b d : String, s = p ++ " | " ++ b ++ " # " ++ d ∧
    (∀ c ∈ b.data, isLineTerm c = false) ∧ d ≠ "" ∧ ∀ c ∈ d.data, isDigitChar c = true

/-- Whether a character list begins with `'|' :: ' '`. -/
def startsPipeSp : List Char → Bool
  | c1 :: c2 :: _ => decide (c1 = '|' ∧ c2 = ' ')
  | _ => false

/-- Executable form of "contains the literal `\x20|\x20` separator". -/
def hasPipeSep : List Char → Bool
  | [] => false
  | c :: rest => (if c = ' ' then startsPipeSp rest else false) || hasPipeSep rest

/-! ## Basic facts about decimal numerals -/

theorem digitChar_digit {d : Nat} (h : d < 10) : isDigitChar (digitChar d) = true := by
  interval_cases d <;> decide

theorem digitVal_digitChar {d : Nat} (h : d < 10) : digitVal (digitChar d) = d := by
  interval_cases d <;> decide

theorem digitsToNat_append (xs : List Char) (c : Char) :
    digitsToNat (xs ++ [c]) = digitsToNat xs * 10 + digitVal c := by
  simp [digitsToNat, List.foldl_append]

theorem natToDecimalAux_spec :
    ∀ fuel n, n < fuel →
      natToDecimalAux fuel n ≠ [] ∧ (∀ c ∈ natToDecimalAux fuel n, isDigitChar c = true) ∧
        digitsToNat (natToDecimalAux fuel n) = n := by
  intro fuel
  induction fuel with
  | zero => intro n h; omega
  | succ fuel ih =>
    intro n h
    by_cases h10 : n < 10
    · refine ⟨by simp [natToDecimalAux, h10], ?_, ?_⟩
      · intro c hc
        simp [natToDecimalAux, h10] at hc
        subst hc
        exact digitChar_digit h10
      · simp [natToDecimalAux, h10, digitsToNat, digitVal_digitChar h10]
    · have hpos : 0 < n := by omega
      have hdiv : n / 10 < fuel := by
        have := Nat.div_lt_self hpos (by omega : 1 < 10)
        omega
      obtain ⟨hne, hall, hval⟩ := ih (n / 10) hdiv
      refine ⟨by simp [natToDecimalAux, h10], ?_, ?_⟩
      · intro c hc
        simp only [natToDecimalAux, if_neg h10, List.mem_append, List.mem_singleton] at hc
        rcases hc with hc | hc
        · exact hall c hc
        · subst hc
          exact digitChar_digit (Nat.mod_lt _ (by omega))
      · simp only [natToDecimalAux, if_neg h10, digitsToNat_append, hval,
          digitVal_digitChar (Nat.mod_lt n (by omega : 0 < 10))]
        omega

theorem natToDecimal_digitRun (n : Nat) : isDigitRun (natToDecimal n) = true := by
  obtain ⟨hne, hall, _⟩ := natToDecimalAux_spec (n + 1) n (by omega)
  simp [isDigitRun, List.isEmpty_iff, List.all_eq_true, natToDecimal, hne]
  exact fun c hc => hall c hc

theorem digitsToNat_natToDecimal (n : Nat) : digitsToNat (natToDecimal n) = n :=
  (natToDecimalAux_spec (n + 1) n (by omega)).2.2

/-! ## The instance registry (i18n.js lines 165–292)

`IcuMessageInstance` is the source's typedef (lines 165–170); the
process-wide map `_icuMessageInstanceMap` (line 173) is a `Registry`.

The argument values attached to an instance are abstracted as a type `V`
with decidable equality: `lodash.isequal`'s deep structural equality on the
plain JSON-like values the registry stores is equality of the corresponding
mathematical values, so in this pure embedding it is `=` on `V`.

`registerStep` is the body of the closure returned by
`createMessageInstanceIdFn` from the point where the canonical
`icuMessageId` has been computed (lines 278–288): the preceding reverse
lookup of the template text in the merged string table and the
path-relativisation (lines 272–277) deterministically produce
`icuMessageId` from the call site and are not needed for the claims, which
quantify over the message key itself. -/

/-- The source's `IcuMessageInstance` typedef. -/
structure IcuMessageInstance (V : Type) where
  icuMessageId : String
  icuMessage : String
  values : V
deriving DecidableEq

/-- The process-wide `_icuMessageInstanceMap`. -/
def Registry (V : Type) : Type := String → List (IcuMessageInstance V)

/-- The empty registry (`new Map()`). -/
def emptyRegistry (V : Type) : Registry V := fun _ => []

/-- `icuMessageInstances.findIndex(inst => isDeepEqual(inst.values, values))`
(line 280), with `-1` rendered as `none`. -/
def findInstanceIdx {V : Type} [DecidableEq V] (l : List (IcuMessageInstance V)) (values : V) :
    Option Nat :=
  match l with
  | [] => none
  | inst :: rest =>
    if inst.values = values then some 0 else (findInstanceIdx rest values).map (· + 1)

/-- Lines 278–287 of the source: fetch the key's sequence (`get(...) || []`),
reuse the index of a deep-equal entry if one exists, otherwise push a new
instance and use the new last index; write the sequence back with
`map.set`.  Returns the updated registry and the chosen index. -/
def registerStep {V : Type} [DecidableEq V] (reg : Registry V)
    (icuMessageId icuMessage : String) (values : V) : Registry V × Nat :=
  let icuMessageInstances := reg icuMessageId
  match findInstanceIdx icuMessageInstances values with
  | some i => (fun k => if k = icuMessageId then icuMessageInstances else reg k, i)
  | none =>
    let pushed := icuMessageInstances ++ [⟨icuMessageId, icuMessage, values⟩]
    (fun k => if k = icuMessageId then pushed else reg k, icuMessageInstances.length)

/-- The full registration call: `registerStep` followed by rendering the
reference token `` `${icuMessageId} # ${indexOfInstance}` `` (line 288). -/
def getMessageInstanceId {V : Type} [DecidableEq V] (reg : Registry V)
    (icuMessageId icuMessage : String) (values : V) : Registry V × String :=
  let r := registerStep reg icuMessageId icuMessage values
  (r.1, encodeToken icuMessageId r.2)

/-- Registry states reachable from `r₀` by a (possibly empty) sequence of
registration calls. -/
inductive Evolves {V : Type} [DecidableEq V] : Registry V → Registry V → Prop
  | refl (r : Registry V) : Evolves r r
  | step (r₀ r₁ : Registry V) (icuMessageId icuMessage : String) (values : V) :
      Evolves r₀ r₁ → Evolves r₀ (registerStep r₁ icuMessageId icuMessage values).1

/-! ## Errors

The fatal failures of the module.  `typeError` is not one of the source's
own `throw new Error(...)` sites: it models the JavaScript `TypeError`
raised when a property is read off `undefined` (as happens in
`_resolveIcuMessageInstanceId` when the indexed instance does not exist). -/

inductive I18nError where
  /-- `Unsupported locale '${locale}'` (lines 186, 239). -/
  | unsupportedLocale (locale : String)
  /-- `ICU message not found in destination locale` (line 203). -/
  | icuMessageNotFound
  /-- `ICU Message contains a value reference ("${el.id}") that wasn't
  provided` (line 140). -/
  | missingValue (id : String)
  /-- `${icuMessageInstanceId} is not a valid message instance ID` (line 338). -/
  | notValidInstanceId
  /-- JavaScript `TypeError`: reading a property of `undefined`. -/
  | typeError
  /-- `Cannot handle "${property}" in i18n` (line 225). -/
  | cannotHandle (segment : String)
deriving DecidableEq

/-! ## Value preprocessing and message formatting (i18n.js lines 128–215)

The external ICU template parser (`intl-messageformat-parser`) is abstracted
as a function `parse` from a template string to its element list; an element
carries its `type` (`"argumentElement"` for placeholders), its `id` (with
`""` standing for a missing/empty id, both falsy in JavaScript) and the
optional `format.style`.  The external renderer (`intl-messageformat`) is
abstracted as a function `render` from (template, locale, values) to the
formatted string.  Values are numeric maps: `Option ℚ` with `none` for the
non-numeric results `NaN`/`undefined`; the entry clone
`JSON.parse(JSON.stringify(values))` is the identity on such pure data. -/

/-- An element of a parsed ICU template. -/
structure MsgElement where
  etype : String
  id : String
  formatStyle : Option String
deriving DecidableEq

/-- A JavaScript object used as a value map, in insertion order. -/
abbrev ValueMap : Type := List (String × Option ℚ)

/-- `key in values`. -/
def hasKey (m : ValueMap) (k : String) : Bool :=
  m.any (fun p => decide (p.1 = k))

/-- `values[key]`, with an absent key reading as `undefined` (`none`). -/
def getVal (m : ValueMap) (k : String) : Option ℚ :=
  match m.find? (fun p => decide (p.1 = k)) with
  | some p => p.2
  | none => none

/-- `values[key] = x`: overwrite in place, or append a new entry. -/
def setVal (m : ValueMap) (k : String) (x : Option ℚ) : ValueMap :=
  match m with
  | [] => [(k, x)]
  | p :: rest => if p.1 = k then (k, x) :: rest else p :: setVal rest k x

/-- JavaScript `Math.round` on a finite value: half rounds toward +∞. -/
def jsRound (x : ℚ) : ℚ := ((⌊x + 1 / 2⌋ : ℤ) : ℚ)

/-- `Math.round(v / 10) * 10` (line 148). -/
def msRewrite (x : ℚ) : ℚ := jsRound (x / 10) * 10

/-- `Math.round(v / 100) / 10` (line 154). -/
def secRewrite (x : ℚ) : ℚ := jsRound (x / 100) / 10

/-- `v / 1024` (line 160). -/
def bytesRewrite (x : ℚ) : ℚ := x / 1024

/-- `el.format && el.format.style === 'milliseconds'` (line 146). -/
def msCond (el : MsgElement) : Bool := decide (el.formatStyle = some "milliseconds")

/-- `el.format && el.format.style === 'seconds' && el.id === 'timeInMs'`
(line 152). -/
def secCond (el : MsgElement) : Bool :=
  decide (el.formatStyle = some "seconds" ∧ el.id = "timeInMs")

/-- `el.format && el.format.style === 'bytes'` (line 158). -/
def bytesCond (el : MsgElement) : Bool := decide (el.formatStyle = some "bytes")

/-- One `parsed.elements.filter(cond).forEach(el => cloned[el.id] = f(cloned[el.id]))`
pass of `_preprocessMessageValues`. -/
def applyStylePass (cond : MsgElement → Bool) (f : ℚ → ℚ)
    (elements : List MsgElement) (m : ValueMap) : ValueMap :=
  (elements.filter cond).foldl
    (fun acc el => setVal acc el.id ((getVal acc el.id).map f)) m

/-- The three rewrite passes of `_preprocessMessageValues` (lines 144–160),
in source order: milliseconds, then seconds, then bytes. -/
def preprocessedValues (elements : List MsgElement) (values : ValueMap) : ValueMap :=
  applyStylePass bytesCond bytesRewrite elements
    (applyStylePass secCond secRewrite elements
      (applyStylePass msCond msRewrite elements values))

/-- The missing-value scan of `_preprocessMessageValues` (lines 136–142):
the first `argumentElement` whose (truthy) id is not a key of `values`. -/
def missingValueCheck (elements : List MsgElement) (values : ValueMap) :
    Option MsgElement :=
  (elements.filter (fun el => decide (el.etype = "argumentElement"))).find?
    (fun el => decide (el.id ≠ "") && !hasKey values el.id)

/-- `_preprocessMessageValues` (lines 128–163): parse the message, throw for
the first missing placeholder value, otherwise run the three unit-rewrite
passes over a clone of the values. -/
def _preprocessMessageValues (parse : String → List MsgElement) (icuMessage : String)
    (values : ValueMap) : Except I18nError ValueMap :=
  match missingValueCheck (parse icuMessage) values with
  | some el => .error (.missingValue el.id)
  | none => .ok (preprocessedValues (parse icuMessage) values)

/-- JavaScript truthiness of `localeMessages[id] && localeMessages[id].message`
combined with the fallback `if (!localeMessage && uiStringMessage)`
(lines 187–200): `none` models `undefined`, and the empty string is falsy. -/
def falsyStr : Option String → Bool
  | none => true
  | some s => decide (s = "")

/-- Lines 187–200: take the catalog message, falling back to the (truthy)
`uiStringMessage` when the catalog entry is falsy. -/
def chooseLocaleMessage (localeMessage uiStringMessage : Option String) : Option String :=
  if falsyStr localeMessage = true ∧ falsyStr uiStringMessage = false then uiStringMessage
  else localeMessage

/-- `_formatIcuMessage` (lines 176–215).  `LOCALES` abstracts the locale
catalog `locales.js` (a mapping from locale to message-id to message text,
`none` for an absent entry); `parse`/`render` abstract the external ICU
parser and formatter.  The discrepancy warning of lines 195–199 is a log
side effect with no influence on the result and is not modelled.  Returns
`(formattedString, icuMessage)`. -/
def _formatIcuMessage (LOCALES : String → Option (String → Option String))
    (parse : String → List MsgElement) (render : String → String → ValueMap → String)
    (locale icuMessageId : String) (uiStringMessage : Option String) (values : ValueMap) :
    Except I18nError (String × String) :=
  match LOCALES locale with
  | none => .error (.unsupportedLocale locale)
  | some localeMessages =>
    match chooseLocaleMessage (localeMessages icuMessageId) uiStringMessage with
    | none => .error .icuMessageNotFound
    | some localeMessage =>
      if localeMessage = "" then .error .icuMessageNotFound
      else
        let localeForMessageFormat :=
          if locale = "en-XA" ∨ locale = "en-XL" then "de-DE" else locale
        match _preprocessMessageValues parse localeMessage values with
        | .error e => .error e
        | .ok valuesForMessageFormat =>
          .ok (render localeMessage localeForMessageFormat valuesForMessageFormat,
            localeMessage)

/-- `_resolveIcuMessageInstanceId` (lines 331–348): match the token against
the full regex (throwing the "not a valid message instance ID" error when it
does not match), fetch the key's instance list (`get(...) || []`), index it
with `Number(...)` of the digit group, and format.  When the index is out of
range the source reads `icuMessageInstance.icuMessage` off `undefined`,
which raises a JavaScript `TypeError` — modelled by `typeError`. -/
def _resolveIcuMessageInstanceId (LOCALES : String → Option (String → Option String))
    (parse : String → List MsgElement) (render : String → String → ValueMap → String)
    (reg : Registry ValueMap) (icuMessageInstanceId locale : String) :
    Except I18nError (IcuMessageInstance ValueMap × String) :=
  match regexMatchICU icuMessageInstanceId.data with
  | none => .error .notValidInstanceId
  | some (keyChars, idxChars) =>
    match (reg (String.mk keyChars)).get? (digitsToNat idxChars) with
    | none => .error .typeError
    | some inst =>
      match _formatIcuMessage LOCALES parse render locale (String.mk keyChars)
          (some inst.icuMessage) inst.values with
      | .error e => .error e
      | .ok r => .ok (inst, r.1)

/-- `getFormatted` (lines 304–315): resolve reference tokens, pass every
other string through unchanged. -/
def getFormatted (LOCALES : String → Option (String → Option String))
    (parse : String → List MsgElement) (render : String → String → ValueMap → String)
    (reg : Registry ValueMap) (icuMessageIdOrRawString locale : String) :
    Except I18nError String :=
  if isIcuMessage icuMessageIdOrRawString = true then
    match _resolveIcuMessageInstanceId LOCALES parse render reg
        icuMessageIdOrRawString locale with
    | .error e => .error e
    | .ok r => .ok r.2
  else .ok icuMessageIdOrRawString

/-! ## Locale lookup (i18n.js lines 110–126)

`lookupLocale` delegates to two external collaborators that are not part of
this repository: `Intl.getCanonicalLocales` (platform) and the npm package
`lookup-closest-locale`.  Following the spec's description of these
interfaces, canonicalisation is an abstract total function `canon` (the
spec: "canonicalizes the requested tag (or the platform default if
absent)"), and the negotiation primitive searches the supported list for
the exact tag and then progressively shorter dash-separated prefixes. -/

/-- Split a character list on `'-'`. -/
def splitDash : List Char → List (List Char)
  | [] => [[]]
  | c :: rest =>
    if c = '-' then [] :: splitDash rest
    else
      match splitDash rest with
      | [] => [[c]]
      | h :: t => (c :: h) :: t

/-- Join character lists with `'-'`. -/
def joinDash : List (List Char) → List Char
  | [] => []
  | [x] => x
  | x :: xs => x ++ '-' :: joinDash xs

/-- Modelled from the spec: the progressively shorter dash-prefixes of a
canonical tag, longest first (`xx-YY-1996 → xx-YY → xx`), excluding the tag
itself. -/
def shorterLocales (c : String) : List String :=
  let segs := splitDash c.data
  ((List.range (segs.length - 1)).reverse).map
    (fun k => String.mk (joinDash (segs.take (k + 1))))

/-- Modelled from the spec: the candidate tags tried by the negotiation
primitive, exact tag first. -/
def localeCandidates (c : String) : List String :=
  c :: shorterLocales c

/-- Modelled from the spec: the external `lookup-closest-locale` package —
"external function mapping (canonicalTag, supportedTagList) ->
closestTagOrUndefined", searching exact match then progressively shorter
prefixes and returning the first supported candidate. -/
def lookupClosestLocale (canonicalLocale : String) (supported : List String) :
    Option String :=
  (localeCandidates canonicalLocale).find? (fun p => supported.contains p)

/-- `lookupLocale` (lines 120–126): canonicalise (abstract `canon`, modelled
from the spec since `Intl.getCanonicalLocales` is a platform interface),
negotiate against the supported set, and fall back to `'en'`. -/
def lookupLocale (canon : Option String → String) (supported : List String)
    (locale : Option String) : String :=
  match lookupClosestLocale (canon locale) supported with
  | some closestLocale => closestLocale
  | none => "en"

/-! ## Report-path formatting (i18n.js lines 217–231) -/

/-- The character class of `/^[a-z]+$/i`. -/
def isAlphaChar (c : Char) : Bool :=
  decide (('a' ≤ c ∧ c ≤ 'z') ∨ ('A' ≤ c ∧ c ≤ 'Z'))

/-- `/^[a-z]+$/i.test(property)`: a nonempty all-letters segment. -/
def alphaSegment (s : String) : Bool :=
  !s.data.isEmpty && s.data.all isAlphaChar

/-- JavaScript `\s`: the whitespace and line-terminator characters. -/
def isJsSpace (c : Char) : Bool :=
  decide (c = '\t' ∨ c = '\n' ∨ c = '\x0b' ∨ c = '\x0c' ∨ c = '\r' ∨ c = ' ' ∨
    c = '\u00a0' ∨ c = '\u1680' ∨ ('\u2000' ≤ c ∧ c ≤ '\u200a') ∨ c = '\u2028' ∨
    c = '\u2029' ∨ c = '\u202f' ∨ c = '\u205f' ∨ c = '\u3000' ∨ c = '\ufeff')

/-- `/]|"|'|\s/.test(property)`. -/
def hasBadPathChar (s : String) : Bool :=
  s.data.any (fun c => decide (c = ']' ∨ c = '"' ∨ c = '\'') || isJsSpace c)

/-- The loop of `_formatPathAsString` with the accumulated string. -/
def formatPathGo : List String → String → Except I18nError String
  | [], acc => .ok acc
  | property :: rest, acc =>
    if alphaSegment property = true then
      formatPathGo rest (if acc = "" then acc ++ property else acc ++ "." ++ property)
    else if hasBadPathChar property = true then .error (.cannotHandle property)
    else formatPathGo rest (acc ++ "[" ++ property ++ "]")

/-- `_formatPathAsString` (lines 217–231). -/
def _formatPathAsString (pathInLHR : List String) : Except I18nError String :=
  formatPathGo pathInLHR ""

/-- One step of the claim's description of the successful output: a bare
all-letter segment is joined with `.` (when something precedes it), every
other segment is wrapped in `[...]` and attached without a dot. -/
def pathStep (acc property : String) : String :=
  if alphaSegment property = true then
    (if acc = "" then acc ++ property else acc ++ "." ++ property)
  else acc ++ "[" ++ property ++ "]"

/-- The claim's description of the successful output, as a total function. -/
def formatPathSpecStr (pathInLHR : List String) : String :=
  pathInLHR.foldl pathStep ""

section RegistryLemmas

variable {V : Type} [DecidableEq V]

theorem findInstanceIdx_eq_none_iff (l : List (IcuMessageInstance V)) (v : V) :
    findInstanceIdx l v = none ↔ ∀ inst ∈ l, inst.values ≠ v := by
  induction l with
  | nil => simp [findInstanceIdx]
  | cons inst rest ih =>
    by_cases hv : inst.values = v
    · simp [findInstanceIdx, hv]
    · simp [findInstanceIdx, hv, ih]

theorem findInstanceIdx_lt_length {l : List (IcuMessageInstance V)} {v : V} {i : Nat}
    (h : findInstanceIdx l v = some i) : i < l.length := by
  induction l generalizing i with
  | nil => simp [findInstanceIdx] at h
  | cons inst rest ih =>
    by_cases hv : inst.values = v
    · simp only [findInstanceIdx, if_pos hv, Option.some.injEq] at h
      simp only [List.length_cons]
      omega
    · simp only [findInstanceIdx, if_neg hv, Option.map_eq_some'] at h
      obtain ⟨j, hj, hji⟩ := h
      have := ih hj
      simp only [List.length_cons]
      omega

theorem findInstanceIdx_append_of_some {l : List (IcuMessageInstance V)} {v : V} {i : Nat}
    (h : findInstanceIdx l v = some i) (t : List (IcuMessageInstance V)) :
    findInstanceIdx (l ++ t) v = some i := by
  induction l generalizing i with
  | nil => simp [findInstanceIdx] at h
  | cons inst rest ih =>
    by_cases hv : inst.values = v
    · simp only [findInstanceIdx, if_pos hv, Option.some.injEq] at h
      simp [findInstanceIdx, hv, h]
    · simp only [findInstanceIdx, if_neg hv, Option.map_eq_some'] at h
      obtain ⟨j, hj, hji⟩ := h
      simp only [List.cons_append, findInstanceIdx, if_neg hv, Option.map_eq_some']
      exact ⟨j, ih hj, hji⟩

theorem findInstanceIdx_append_fresh {l : List (IcuMessageInstance V)} {v : V}
    (h : findInstanceIdx l v = none) (inst : IcuMessageInstance V) (hv : inst.values = v) :
    findInstanceIdx (l ++ [inst]) v = some l.length := by
  induction l with
  | nil => simp [findInstanceIdx, hv]
  | cons inst0 rest ih =>
    by_cases hv0 : inst0.values = v
    · simp [findInstanceIdx, hv0] at h
    · simp only [findInstanceIdx, if_neg hv0, Option.map_eq_none'] at h
      simp only [List.cons_append, findInstanceIdx, if_neg hv0, List.length_cons]
      rw [List.append_eq, ih h]
      rfl

theorem registerStep_snd_found {reg : Registry V} {id : String} {v : V} {i : Nat}
    (msg : String) (h : findInstanceIdx (reg id) v = some i) :
    (registerStep reg id msg v).2 = i := by
  simp [registerStep, h]

theorem registerStep_snd_fresh {reg : Registry V} {id : String} {v : V}
    (msg : String) (h : findInstanceIdx (reg id) v = none) :
    (registerStep reg id msg v).2 = (reg id).length := by
  simp [registerStep, h]

theorem registerStep_fst_self_found {reg : Registry V} {id : String} {v : V} {i : Nat}
    (msg : String) (h : findInstanceIdx (reg id) v = some i) :
    (registerStep reg id msg v).1 id = reg id := by
  simp [registerStep, h]

theorem registerStep_fst_self_fresh {reg : Registry V} {id : String} {v : V}
    (msg : String) (h : findInstanceIdx (reg id) v = none) :
    (registerStep reg id msg v).1 id = reg id ++ [⟨id, msg, v⟩] := by
  simp [registerStep, h]

theorem registerStep_apply_ne (reg : Registry V) (id msg : String) (v : V) (k : String)
    (hk : k ≠ id) : (registerStep reg id msg v).1 k = reg k := by
  cases h : findInstanceIdx (reg id) v <;> simp [registerStep, h, hk]

theorem registerStep_append (reg : Registry V) (id msg : String) (v : V) (k : String) :
    ∃ t, (registerStep reg id msg v).1 k = reg k ++ t := by
  by_cases hk : k = id
  · subst hk
    cases h : findInstanceIdx (reg k) v with
    | none => exact ⟨[⟨k, msg, v⟩], registerStep_fst_self_fresh msg h⟩
    | some i => exact ⟨[], by simpa using registerStep_fst_self_found msg h⟩
  · exact ⟨[], by simpa using registerStep_apply_ne reg id msg v k hk⟩

theorem registerStep_find_post (reg : Registry V) (id msg : String) (v : V) :
    findInstanceIdx ((registerStep reg id msg v).1 id) v = some (registerStep reg id msg v).2 := by
  cases h : findInstanceIdx (reg id) v with
  | none =>
    rw [registerStep_fst_self_fresh msg h, registerStep_snd_fresh msg h]
    exact findInstanceIdx_append_fresh h ⟨id, msg, v⟩ rfl
  | some i =>
    rw [registerStep_fst_self_found msg h, registerStep_snd_found msg h]
    exact h

theorem registerStep_idx_lt (reg : Registry V) (id msg : String) (v : V) :
    (registerStep reg id msg v).2 < ((registerStep reg id msg v).1 id).length :=
  findInstanceIdx_lt_length (registerStep_find_post reg id msg v)

theorem evolves_append {r r' : Registry V} (h : Evolves r r') (k : String) :
    ∃ t, r' k = r k ++ t := by
  induction h with
  | refl => exact ⟨[], by simp⟩
  | step r₁ id msg v _ ih =>
    obtain ⟨t, ht⟩ := ih
    obtain ⟨t', ht'⟩ := registerStep_append r₁ id msg v k
    exact ⟨t ++ t', by rw [ht', ht, List.append_assoc]⟩

theorem evolves_length_le {r r' : Registry V} (h : Evolves r r') (k : String) :
    (r k).length ≤ (r' k).length := by
  obtain ⟨t, ht⟩ := evolves_append h k
  simp [ht]

theorem registerStep_pairwise (reg : Registry V) (id msg : String) (v : V)
    (h : ∀ k, List.Pairwise (fun a b => a.values ≠ b.values) (reg k)) (k : String) :
    List.Pairwise (fun a b => a.values ≠ b.values) ((registerStep reg id msg v).1 k) := by
  by_cases hk : k = id
  · subst hk
    cases hfind : findInstanceIdx (reg k) v with
    | some i => rw [registerStep_fst_self_found msg hfind]; exact h k
    | none =>
      rw [registerStep_fst_self_fresh msg hfind, List.pairwise_append]
      refine ⟨h k, by simp, ?_⟩
      intro a ha b hb
      simp only [List.mem_singleton] at hb
      subst hb
      simpa using (findInstanceIdx_eq_none_iff (reg k) v).mp hfind a ha
  · rw [registerStep_apply_ne reg id msg v k hk]
    exact h k

end RegistryLemmas

/-- **C1.** For every message key and every value set: registering the same
key with deeply-equal values twice (even with arbitrary other registrations
in between) returns the identical reference token both times; registering a
key with values not deeply equal to any previously registered values for
that key yields the index equal to the previous length of that key's
instance sequence, which is strictly greater than every index issued
earlier for that key by any registration call — no prior index is reused. -/
theorem claim1_register_dedup {V : Type} [DecidableEq V] (reg : Registry V)
    (key msg : String) (v : V) :
    (∀ reg', Evolves (registerStep reg key msg v).1 reg' →
        (getMessageInstanceId reg' key msg v).2 = (getMessageInstanceId reg key msg v).2)
    ∧ ((∀ inst ∈ reg key, inst.values ≠ v) →
        (registerStep reg key msg v).2 = (reg key).length)
    ∧ ((∀ inst ∈ reg key, inst.values ≠ v) →
        ∀ (reg₀ : Registry V) (msg₀ : String) (v₀ : V),
          Evolves (registerStep reg₀ key msg₀ v₀).1 reg →
            (registerStep reg₀ key msg₀ v₀).2 < (registerStep reg key msg v).2) := by
  refine ⟨?_, ?_, ?_⟩
  · intro reg' hev
    obtain ⟨t, ht⟩ := evolves_append hev key
    have hpost := registerStep_find_post reg key msg v
    have hfind : findInstanceIdx (reg' key) v = some (registerStep reg key msg v).2 := by
      rw [ht]
      exact findInstanceIdx_append_of_some hpost t
    simp only [getMessageInstanceId]
    rw [registerStep_snd_found msg hfind]
  · intro hfresh
    exact registerStep_snd_fresh msg ((findInstanceIdx_eq_none_iff _ _).mpr hfresh)
  · intro hfresh reg₀ msg₀ v₀ hev
    have h1 := registerStep_idx_lt reg₀ key msg₀ v₀
    have h2 := evolves_length_le hev key
    have h3 : (registerStep reg key msg v).2 = (reg key).length :=
      registerStep_snd_fresh msg ((findInstanceIdx_eq_none_iff _ _).mpr hfresh)
    omega

/-- Witness for C1: first registration of fresh values on the empty registry
is issued index 0, the length of the (empty) previous sequence. -/
theorem claim1_register_dedup_witness :
    (registerStep (emptyRegistry Nat) "core/file.js | msg" "template" 5).2 = 0 := by
  have h :=
    (claim1_register_dedup (V := Nat) (emptyRegistry Nat) "core/file.js | msg" "template" 5).2.1
      (by intro inst hmem; simp [emptyRegistry] at hmem)
  simpa [emptyRegistry] using h

/-- **C2.** Every registry state reachable by register calls from the empty
map satisfies: for every key, the stored instance sequence has pairwise
non-deeply-equal values (no duplicates), and registration only appends —
every later reachable state extends each key's sequence on the right, so an
entry's position, once assigned, is never changed, reordered or removed. -/
theorem claim2_registry_invariants {V : Type} [DecidableEq V] (reg : Registry V)
    (h : Evolves (emptyRegistry V) reg) :
    (∀ key, List.Pairwise (fun a b => a.values ≠ b.values) (reg key))
    ∧ (∀ reg', Evolves reg reg' → ∀ key, ∃ t, reg' key = reg key ++ t) := by
  constructor
  · induction h with
    | refl => intro key; simp [emptyRegistry]
    | step r₁ id msg v _ ih => exact registerStep_pairwise r₁ id msg v ih
  · intro reg' hev key
    exact evolves_append hev key

/-! ## Lemmas about the regex matcher -/

@[simp] theorem orElseOpt_some (x : α) (b : Option α) : orElseOpt (some x) b = some x := rfl

@[simp] theorem orElseOpt_none (b : Option α) : orElseOpt none b = b := rfl

theorem orElseOpt_isSome (a b : Option α) :
    (orElseOpt a b).isSome = (a.isSome || b.isSome) := by
  cases a <;> simp

theorem isDigitRun_all {l : List Char} (h : isDigitRun l = true) :
    ∀ c ∈ l, isDigitChar c = true := by
  simp only [isDigitRun, Bool.and_eq_true, List.all_eq_true] at h
  exact h.2

theorem isDigitRun_ne_nil {l : List Char} (h : isDigitRun l = true) : l ≠ [] := by
  intro hl
  subst hl
  simp [isDigitRun] at h

theorem digit_ne {c : Char} (h : isDigitChar c = true) : c ≠ ' ' ∧ c ≠ '#' ∧ c ≠ '|' := by
  refine ⟨?_, ?_, ?_⟩ <;> intro heq <;> subst heq <;> exact absurd h (by decide)

theorem digit_not_lineTerm {c : Char} (h : isDigitChar c = true) : isLineTerm c = false := by
  simp only [isDigitChar, decide_eq_true_eq] at h
  simp only [isLineTerm, decide_eq_false_iff_not]
  rintro (rfl | rfl | rfl | rfl) <;> revert h <;> decide

theorem tailDigits_mk {ds : List Char} (h : isDigitRun ds = true) :
    tailDigits ('#' :: ' ' :: ds) = some ds := by
  simp [tailDigits, h]

theorem tailDigits_sound {l ds : List Char} (h : tailDigits l = some ds) :
    l = '#' :: ' ' :: ds ∧ isDigitRun ds = true := by
  match l with
  | [] => simp [tailDigits] at h
  | [c] => simp [tailDigits] at h
  | c1 :: c2 :: t =>
    simp only [tailDigits] at h
    split at h
    · rename_i hc
      obtain ⟨h1, h2, h3⟩ := hc
      subst h1; subst h2
      simp only [Option.some.injEq] at h
      subst h
      exact ⟨rfl, h3⟩
    · simp at h

theorem tailDigits_digits_none {l : List Char} (h : ∀ c ∈ l, isDigitChar c = true) :
    tailDigits l = none := by
  match l with
  | [] => rfl
  | [c] => rfl
  | c1 :: c2 :: t =>
    simp only [tailDigits]
    rw [if_neg]
    rintro ⟨h1, -, -⟩
    exact (digit_ne (h c1 (by simp))).2.1 h1

theorem matchTailGreedy_digits_none {l : List Char} (h : ∀ c ∈ l, isDigitChar c = true) :
    matchTailGreedy l = none := by
  induction l with
  | nil => rfl
  | cons c rest ih =>
    have hrest : matchTailGreedy rest = none := ih (fun x hx => h x (by simp [hx]))
    have hc : c ≠ ' ' := (digit_ne (h c (by simp))).1
    simp only [matchTailGreedy, hrest, Option.map_none', if_neg hc]
    cases isLineTerm c <;> simp

theorem matchTailGreedy_space_digits_none {ds : List Char}
    (h : ∀ c ∈ ds, isDigitChar c = true) : matchTailGreedy (' ' :: ds) = none := by
  rw [matchTailGreedy, matchTailGreedy_digits_none h, tailDigits_digits_none h]
  have h1 : isLineTerm ' ' = false := by decide
  simp [h1]

theorem matchTailGreedy_hash_space_digits_none {ds : List Char}
    (h : ∀ c ∈ ds, isDigitChar c = true) : matchTailGreedy ('#' :: ' ' :: ds) = none := by
  rw [matchTailGreedy, matchTailGreedy_space_digits_none h]
  have h1 : isLineTerm '#' = false := by decide
  simp [h1]

theorem matchTailGreedy_decode {b d : List Char}
    (hb : ∀ c ∈ b, isLineTerm c = false) (hd : isDigitRun d = true) :
    matchTailGreedy (b ++ ' ' :: '#' :: ' ' :: d) = some (b, d) := by
  induction b with
  | nil =>
    rw [List.nil_append, matchTailGreedy,
      matchTailGreedy_hash_space_digits_none (isDigitRun_all hd), tailDigits_mk hd]
    have h1 : isLineTerm ' ' = false := by decide
    simp [h1]
  | cons c b' ih =>
    have hb' : ∀ x ∈ b', isLineTerm x = false := fun x hx => hb x (by simp [hx])
    have hc : isLineTerm c = false := hb c (by simp)
    rw [List.cons_append, matchTailGreedy, ih hb']
    simp [hc]

theorem matchTailGreedy_sound {l b d : List Char}
    (h : matchTailGreedy l = some (b, d)) :
    l = b ++ ' ' :: '#' :: ' ' :: d ∧ (∀ c ∈ b, isLineTerm c = false) ∧
      isDigitRun d = true := by
  induction l generalizing b d with
  | nil => simp [matchTailGreedy] at h
  | cons c rest ih =>
    simp only [matchTailGreedy] at h
    cases hx : (if isLineTerm c then none
        else (matchTailGreedy rest).map (fun p => (c :: p.1, p.2))) with
    | some p =>
      rw [hx, orElseOpt_some] at h
      have hlt : isLineTerm c = false := by
        by_contra hcon
        simp only [Bool.not_eq_false] at hcon
        simp [hcon] at hx
      rw [if_neg (by simp [hlt])] at hx
      simp only [Option.map_eq_some'] at hx
      obtain ⟨q, hq, hqp⟩ := hx
      obtain ⟨hq1, hq2, hq3⟩ := ih hq
      obtain ⟨b', d'⟩ := q
      dsimp only at hqp hq1 hq2 hq3
      rw [← hqp] at h
      simp only [Option.some.injEq, Prod.mk.injEq] at h
      obtain ⟨hb, hdd⟩ := h
      subst hb; subst hdd
      refine ⟨by simpa using congrArg (c :: ·) hq1, ?_, hq3⟩
      intro x hx
      rcases List.mem_cons.mp hx with rfl | hx
      · exact hlt
      · exact hq2 x hx
    | none =>
      rw [hx, orElseOpt_none] at h
      by_cases hc : c = ' '
      · rw [if_pos hc] at h
        simp only [Option.map_eq_some'] at h
        obtain ⟨ds, hds, hp⟩ := h
        simp only [Prod.mk.injEq] at hp
        obtain ⟨hb, hdd⟩ := hp
        subst hb; subst hdd; subst hc
        obtain ⟨hrest, hrun⟩ := tailDigits_sound hds
        exact ⟨by simp [hrest], by simp, hrun⟩
      · rw [if_neg hc] at h
        simp at h

theorem startsPipeSp_sound {l : List Char} (h : startsPipeSp l = true) :
    ∃ q, l = '|' :: ' ' :: q := by
  match l with
  | [] => simp [startsPipeSp] at h
  | [c] => simp [startsPipeSp] at h
  | c1 :: c2 :: q =>
    simp only [startsPipeSp, decide_eq_true_eq] at h
    exact ⟨q, by rw [h.1, h.2]⟩

theorem hasPipeSep_iff (m : List Char) :
    hasPipeSep m = true ↔ ∃ p q, m = p ++ ' ' :: '|' :: ' ' :: q := by
  induction m with
  | nil =>
    simp only [hasPipeSep]
    constructor
    · intro h; simp at h
    · rintro ⟨p, q, hpq⟩
      exact absurd hpq (by simp)
  | cons c rest ih =>
    simp only [hasPipeSep, Bool.or_eq_true]
    constructor
    · rintro (h | h)
      · have hc : c = ' ' := by
          by_contra hcon
          simp [hcon] at h
        rw [if_pos hc] at h
        obtain ⟨q, hq⟩ := startsPipeSp_sound h
        exact ⟨[], q, by rw [hc, hq]; rfl⟩
      · obtain ⟨p, q, hpq⟩ := ih.mp h
        exact ⟨c :: p, q, by rw [hpq]; rfl⟩
    · rintro ⟨p, q, hpq⟩
      match p, hpq with
      | [], hpq =>
        simp only [List.nil_append, List.cons.injEq] at hpq
        left
        rw [if_pos hpq.1, hpq.2]
        simp [startsPipeSp]
      | a :: p', hpq =>
        simp only [List.cons_append, List.cons.injEq] at hpq
        right
        exact ih.mpr ⟨p', q, hpq.2⟩

theorem pipeTail_digits_none {ds : List Char} (h : ∀ c ∈ ds, isDigitChar c = true) :
    pipeTail ds = none := by
  match ds with
  | [] => rfl
  | [c] => rfl
  | c1 :: c2 :: t =>
    simp only [pipeTail]
    rw [if_neg]
    rintro ⟨h1, -⟩
    exact (digit_ne (h c1 (by simp))).2.2 h1

theorem matchHeadGreedy_digits_none {l : List Char} (h : ∀ c ∈ l, isDigitChar c = true) :
    matchHeadGreedy l = none := by
  induction l with
  | nil => rfl
  | cons c rest ih =>
    have hrest : matchHeadGreedy rest = none := ih (fun x hx => h x (by simp [hx]))
    have hc : c ≠ ' ' := (digit_ne (h c (by simp))).1
    simp only [matchHeadGreedy, hrest, Option.map_none', if_neg hc]
    cases isLineTerm c <;> simp

theorem matchHeadGreedy_space_digits_none {ds : List Char}
    (h : ∀ c ∈ ds, isDigitChar c = true) : matchHeadGreedy (' ' :: ds) = none := by
  rw [matchHeadGreedy, matchHeadGreedy_digits_none h, pipeTail_digits_none h]
  have h1 : isLineTerm ' ' = false := by decide
  simp [h1]

theorem matchHeadGreedy_hash_space_digits_none {ds : List Char}
    (h : ∀ c ∈ ds, isDigitChar c = true) : matchHeadGreedy ('#' :: ' ' :: ds) = none := by
  rw [matchHeadGreedy, matchHeadGreedy_space_digits_none h]
  have h1 : isLineTerm '#' = false := by decide
  simp [h1]

theorem matchHeadGreedy_nopipe {u d : List Char} (hu : hasPipeSep u = false)
    (hd : isDigitRun d = true) :
    matchHeadGreedy (u ++ ' ' :: '#' :: ' ' :: d) = none := by
  induction u with
  | nil =>
    rw [List.nil_append, matchHeadGreedy,
      matchHeadGreedy_hash_space_digits_none (isDigitRun_all hd)]
    have h1 : isLineTerm ' ' = false := by decide
    have h2 : pipeTail ('#' :: ' ' :: d) = none := by
      simp only [pipeTail]
      rw [if_neg]
      rintro ⟨h3, -⟩
      exact absurd h3 (by decide)
    simp [h1, h2]
  | cons c u' ih =>
    rw [hasPipeSep] at hu
    have hu1 : (if c = ' ' then startsPipeSp u' else false) = false := by
      cases h1 : (if c = ' ' then startsPipeSp u' else false) with
      | false => rfl
      | true => rw [h1] at hu; simp at hu
    have hu' : hasPipeSep u' = false := by
      cases h1 : hasPipeSep u' with
      | false => rfl
      | true => rw [h1] at hu; simp at hu
    rw [List.cons_append, matchHeadGreedy, ih hu']
    have hstop : (if c = ' ' then
        (pipeTail (u' ++ ' ' :: '#' :: ' ' :: d)).map (fun p => (' ' :: p.1, p.2))
        else none) = none := by
      by_cases hc : c = ' '
      · rw [if_pos hc]
        have hps : startsPipeSp u' = false := by rwa [if_pos hc] at hu1
        have hpt : pipeTail (u' ++ ' ' :: '#' :: ' ' :: d) = none := by
          match u' with
          | [] =>
            simp only [List.nil_append, pipeTail]
            rw [if_neg]
            rintro ⟨h3, -⟩
            exact absurd h3 (by decide)
          | [c1] =>
            simp only [List.cons_append, List.nil_append, pipeTail]
            split
            · rw [matchTailGreedy_hash_space_digits_none (isDigitRun_all hd)]
              rfl
            · rfl
          | c1 :: c2 :: t =>
            simp only [List.cons_append, pipeTail]
            rw [if_neg]
            rintro ⟨h3, h4⟩
            rw [h3, h4] at hps
            simp [startsPipeSp] at hps
        rw [hpt]
        rfl
      · exact if_neg hc
    rw [hstop]
    cases isLineTerm c <;> simp

theorem matchHeadGreedy_decode {m d : List Char}
    (hm : ∀ c ∈ m, isLineTerm c = false) (hp : hasPipeSep m = true)
    (hd : isDigitRun d = true) :
    matchHeadGreedy (m ++ ' ' :: '#' :: ' ' :: d) = some (m, d) := by
  induction m with
  | nil => simp [hasPipeSep] at hp
  | cons c m' ih =>
    cases hm' : hasPipeSep m' with
    | true =>
      have hcm : isLineTerm c = false := hm c (by simp)
      have hm'' : ∀ x ∈ m', isLineTerm x = false := fun x hx => hm x (by simp [hx])
      rw [List.cons_append, matchHeadGreedy, ih hm'' hm']
      simp [hcm]
    | false =>
      have hcs : c = ' ' ∧ startsPipeSp m' = true := by
        rw [hasPipeSep, hm', Bool.or_false] at hp
        by_cases hc : c = ' '
        · rw [if_pos hc] at hp; exact ⟨hc, hp⟩
        · rw [if_neg hc] at hp; exact absurd hp (by simp)
      obtain ⟨q, hq⟩ := startsPipeSp_sound hcs.2
      have hq' : ∀ x ∈ q, isLineTerm x = false := by
        intro x hx
        exact hm x (by simp [hq, hx])
      rw [List.cons_append, matchHeadGreedy]
      have hnone : matchHeadGreedy (m' ++ ' ' :: '#' :: ' ' :: d) = none :=
        matchHeadGreedy_nopipe hm' hd
      rw [hnone]
      have hpt : pipeTail (m' ++ ' ' :: '#' :: ' ' :: d) = some ('|' :: ' ' :: q, d) := by
        rw [hq]
        simp only [List.cons_append, pipeTail]
        simp [matchTailGreedy_decode hq' hd]
      rw [hcs.1, if_pos rfl, hpt]
      have h1 : isLineTerm ' ' = false := by decide
      simp [h1, hq]

theorem pipeTail_sound {l pg pd : List Char} (h : pipeTail l = some (pg, pd)) :
    ∃ b, l = '|' :: ' ' :: (b ++ ' ' :: '#' :: ' ' :: pd) ∧ pg = '|' :: ' ' :: b ∧
      (∀ c ∈ b, isLineTerm c = false) ∧ isDigitRun pd = true := by
  match l with
  | [] => simp [pipeTail] at h
  | [c] => simp [pipeTail] at h
  | c1 :: c2 :: t =>
    simp only [pipeTail] at h
    split at h
    · rename_i hcond
      simp only [Option.map_eq_some'] at h
      obtain ⟨q, hq, hqp⟩ := h
      obtain ⟨b', d'⟩ := q
      obtain ⟨ht1, ht2, ht3⟩ := matchTailGreedy_sound hq
      dsimp only at hqp
      simp only [Prod.mk.injEq] at hqp
      obtain ⟨hg, hdd⟩ := hqp
      subst hg; subst hdd
      exact ⟨b', by rw [hcond.1, hcond.2, ht1], rfl, ht2, ht3⟩
    · simp at h

theorem matchHeadGreedy_sound {l g d : List Char}
    (h : matchHeadGreedy l = some (g, d)) :
    l = g ++ ' ' :: '#' :: ' ' :: d ∧ (∀ c ∈ g, isLineTerm c = false) ∧
      hasPipeSep g = true ∧ isDigitRun d = true := by
  induction l generalizing g d with
  | nil => simp [matchHeadGreedy] at h
  | cons c rest ih =>
    simp only [matchHeadGreedy] at h
    cases hx : (if isLineTerm c then none
        else (matchHeadGreedy rest).map (fun p => (c :: p.1, p.2))) with
    | some p =>
      rw [hx, orElseOpt_some] at h
      have hlt : isLineTerm c = false := by
        by_contra hcon
        simp only [Bool.not_eq_false] at hcon
        simp [hcon] at hx
      rw [if_neg (by simp [hlt])] at hx
      simp only [Option.map_eq_some'] at hx
      obtain ⟨q, hq, hqp⟩ := hx
      obtain ⟨g', d'⟩ := q
      obtain ⟨hq1, hq2, hq3, hq4⟩ := ih hq
      dsimp only at hqp hq1 hq2 hq3 hq4
      rw [← hqp] at h
      simp only [Option.some.injEq, Prod.mk.injEq] at h
      obtain ⟨hg, hdd⟩ := h
      subst hg; subst hdd
      refine ⟨by simpa using congrArg (c :: ·) hq1, ?_, ?_, hq4⟩
      · intro x hx
        rcases List.mem_cons.mp hx with rfl | hx
        · exact hlt
        · exact hq2 x hx
      · simp [hasPipeSep, hq3]
    | none =>
      rw [hx, orElseOpt_none] at h
      by_cases hc : c = ' '
      · rw [if_pos hc] at h
        simp only [Option.map_eq_some'] at h
        obtain ⟨p, hpt, hp⟩ := h
        obtain ⟨pg, pd⟩ := p
        dsimp only at hp
        simp only [Prod.mk.injEq] at hp
        obtain ⟨hg, hdd⟩ := hp
        obtain ⟨b, hl, hpg, hb, hrun⟩ := pipeTail_sound hpt
        subst hc
        rw [← hg, ← hdd, hpg]
        refine ⟨?_, ?_, ?_, hrun⟩
        · rw [hl]
          rfl
        · intro x hx
          rcases List.mem_cons.mp hx with rfl | hx
          · decide
          · rcases List.mem_cons.mp hx with rfl | hx
            · decide
            · rcases List.mem_cons.mp hx with rfl | hx
              · decide
              · exact hb x hx
        · simp [hasPipeSep, startsPipeSp]
      · rw [if_neg hc] at h
        simp at h

theorem regexMatchICU_sound {l g d : List Char}
    (h : regexMatchICU l = some (g, d)) :
    ∃ pre, l = pre ++ g ++ ' ' :: '#' :: ' ' :: d ∧ (∀ c ∈ g, isLineTerm c = false) ∧
      hasPipeSep g = true ∧ isDigitRun d = true := by
  induction l with
  | nil => simp [regexMatchICU] at h
  | cons c rest ih =>
    rw [regexMatchICU] at h
    cases hx : matchHeadGreedy (c :: rest) with
    | some p =>
      rw [hx, orElseOpt_some] at h
      have hp : p = (g, d) := by
        cases h
        rfl
      subst hp
      obtain ⟨h1, h2, h3, h4⟩ := matchHeadGreedy_sound hx
      exact ⟨[], by simpa using h1, h2, h3, h4⟩
    | none =>
      rw [hx, orElseOpt_none] at h
      obtain ⟨pre, h1, h2, h3, h4⟩ := ih h
      exact ⟨c :: pre, by simp [h1], h2, h3, h4⟩

theorem regexMatchICU_isSome_append {u rest : List Char}
    (h : (matchHeadGreedy rest).isSome = true) :
    (regexMatchICU (u ++ rest)).isSome = true := by
  induction u with
  | nil =>
    match rest, h with
    | [], h => simp [matchHeadGreedy] at h
    | c :: rest', h =>
      rw [List.nil_append, regexMatchICU, orElseOpt_isSome, h]
      simp
  | cons a u' ih =>
    rw [List.cons_append, regexMatchICU, orElseOpt_isSome, ih]
    simp

theorem regexMatchICU_exact {key d : List Char}
    (hk : ∀ c ∈ key, isLineTerm c = false) (hp : hasPipeSep key = true)
    (hd : isDigitRun d = true) :
    regexMatchICU (key ++ ' ' :: '#' :: ' ' :: d) = some (key, d) := by
  match key, hp with
  | [], hp => simp [hasPipeSep] at hp
  | c :: k', hp =>
    rw [List.cons_append, regexMatchICU,
      show (c :: (k' ++ ' ' :: '#' :: ' ' :: d)) = ((c :: k') ++ ' ' :: '#' :: ' ' :: d) from rfl,
      matchHeadGreedy_decode hk hp hd]
    rfl

theorem quickSearch_append {u d : List Char} (hd : isDigitRun d = true) :
    quickSearch (u ++ ' ' :: '#' :: ' ' :: d) = true := by
  induction u with
  | nil =>
    rw [List.nil_append, quickSearch, if_pos rfl, tailDigits_mk hd]
    simp
  | cons c u' ih =>
    rw [List.cons_append, quickSearch, ih]
    simp

theorem quick_of_full {s : String} (h : fullRegexTest s = true) :
    quickRegexTest s = true := by
  simp only [fullRegexTest, Option.isSome_iff_exists] at h
  obtain ⟨⟨g, d⟩, hp⟩ := h
  obtain ⟨pre, h1, h2, h3, h4⟩ := regexMatchICU_sound hp
  simp only [quickRegexTest]
  rw [h1]
  exact quickSearch_append h4

theorem string_ext_of_data {s t : String} (h : s.data = t.data) : s = t :=
  congrArg String.mk h

theorem string_data_eq_nil {d : String} (h : d.data = []) : d = "" :=
  string_ext_of_data (by rw [h])

/-- Witness for C2 at the registry reached by one registration call. -/
theorem claim2_registry_invariants_witness :
    (∀ key, List.Pairwise (fun (a b : IcuMessageInstance Nat) => a.values ≠ b.values)
        ((registerStep (emptyRegistry Nat) "core/file.js | msg" "template" 5).1 key))
    ∧ (∀ reg', Evolves (registerStep (emptyRegistry Nat) "core/file.js | msg" "template" 5).1 reg' →
        ∀ key, ∃ t, reg' key =
          (registerStep (emptyRegistry Nat) "core/file.js | msg" "template" 5).1 key ++ t) :=
  claim2_registry_invariants _
    (Evolves.step (emptyRegistry Nat) (emptyRegistry Nat) "core/file.js | msg" "template" 5
      (Evolves.refl _))

/-- **C3, counterexample.** The claim quantifies over every key containing
the `\x20|\x20` separator and not ending in `\x20#\x20<digits>`; a key whose
separator is preceded by a newline fails the round trip, because the regex's
`.*` cannot cross a line terminator, so the match starts after the newline
and group 1 drops the key's first line. -/
theorem claim3_counterexample :
    hasPipeSep ("a\nb | c" : String).data = true ∧
    quickRegexTest "a\nb | c" = false ∧
    decodeToken (encodeToken "a\nb | c" 0) ≠ some ("a\nb | c", 0) := by
  decide

/-- **C3, amended.** For every message key that contains the `\x20|\x20`
separator, does not end in `\x20#\x20` followed by digits, *and contains no
line terminator characters*, and every index `i`, decoding the encoded
token yields exactly that key and that index. -/
theorem claim3_roundtrip_amended (key : String) (i : Nat)
    (hpipe : hasPipeSep key.data = true)
    (hend : quickRegexTest key = false)
    (hnl : ∀ c ∈ key.data, isLineTerm c = false) :
    decodeToken (encodeToken key i) = some (key, i) := by
  have hdata : (encodeToken key i).data = key.data ++ ' ' :: '#' :: ' ' :: natToDecimal i := by
    simp [encodeToken, String.data_append]
  simp only [decodeToken, hdata,
    regexMatchICU_exact hnl hpipe (natToDecimal_digitRun i), Option.map_some']
  rw [digitsToNat_natToDecimal]

/-- Witness for the amended C3 at a realistic message key. -/
theorem claim3_roundtrip_amended_witness :
    decodeToken (encodeToken "lighthouse-core/lib/i18n/i18n.js | ms" 3) =
      some ("lighthouse-core/lib/i18n/i18n.js | ms", 3) :=
  claim3_roundtrip_amended "lighthouse-core/lib/i18n/i18n.js | ms" 3
    (by decide) (by decide) (by decide)

/-- **C4, counterexample.** A string containing `\x20|\x20`, then a newline,
then `\x20#\x20` and digits at the end has the shape the claim describes
(with "anything" meaning any characters), yet `isIcuMessage` rejects it,
because `.*` in the full regex cannot cross the line terminator. -/
theorem claim4_counterexample :
    specTokenShape "a | b\nc # 5" ∧ isIcuMessage "a | b\nc # 5" = false := by
  refine ⟨⟨"a | b\nc", "5", by decide, ⟨"a", "b\nc", by decide⟩, by decide, by decide⟩, by decide⟩

/-- **C4, amended.** For every string `s`: `isIcuMessage s` is true iff `s`
decomposes as `p ++ "\x20|\x20" ++ b ++ "\x20#\x20" ++ d` with `d` a
nonempty digit run ending the string and *`b` free of line terminators*
(`p` unconstrained); moreover conjoining the quick suffix pre-filter with
the full regex does not change the accepted set: `isIcuMessage` agrees with
the full regex alone on every string. -/
theorem claim4_token_shape_amended (s : String) :
    (isIcuMessage s = true ↔ lineTokenShape s) ∧ isIcuMessage s = fullRegexTest s := by
  have heq : isIcuMessage s = fullRegexTest s := by
    simp only [isIcuMessage]
    cases hf : fullRegexTest s with
    | true => rw [quick_of_full hf]; rfl
    | false => simp
  refine ⟨?_, heq⟩
  rw [heq]
  constructor
  · intro h
    simp only [fullRegexTest, Option.isSome_iff_exists] at h
    obtain ⟨⟨g, d⟩, hp⟩ := h
    obtain ⟨pre, h1, h2, h3, h4⟩ := regexMatchICU_sound hp
    obtain ⟨a, bq, hg⟩ := (hasPipeSep_iff g).mp h3
    refine ⟨String.mk (pre ++ a), String.mk bq, String.mk d, ?_, ?_, ?_, ?_⟩
    · apply string_ext_of_data
      rw [h1, hg]
      have hd1 : (" | " : String).data = [' ', '|', ' '] := rfl
      have hd2 : (" # " : String).data = [' ', '#', ' '] := rfl
      simp [String.data_append, hd1, hd2]
    · intro c hc
      exact h2 c (by rw [hg]; simp only [List.mem_append, List.mem_cons]; tauto)
    · intro hcon
      have := congrArg String.data hcon
      simp only at this
      exact isDigitRun_ne_nil h4 this
    · exact fun c hc => isDigitRun_all h4 c hc
  · rintro ⟨p, b, d, hs, hb, hdne, hdd⟩
    have hrun : isDigitRun d.data = true := by
      simp only [isDigitRun, Bool.and_eq_true, List.all_eq_true]
      constructor
      · cases hdl : d.data with
        | nil => exact absurd (string_data_eq_nil hdl) hdne
        | cons x xs => rfl
      · exact hdd
    have hsdata : s.data =
        p.data ++ (' ' :: '|' :: ' ' :: (b.data ++ ' ' :: '#' :: ' ' :: d.data)) := by
      have := congrArg String.data hs
      have hd1 : (" | " : String).data = [' ', '|', ' '] := rfl
      have hd2 : (" # " : String).data = [' ', '#', ' '] := rfl
      simp only [String.data_append, hd1, hd2] at this
      rw [this]
      simp
    have hmhg : (matchHeadGreedy
        (' ' :: '|' :: ' ' :: (b.data ++ ' ' :: '#' :: ' ' :: d.data))).isSome = true := by
      have hm : ∀ c ∈ ' ' :: '|' :: ' ' :: b.data, isLineTerm c = false := by
        intro c hc
        rcases List.mem_cons.mp hc with rfl | hc
        · decide
        · rcases List.mem_cons.mp hc with rfl | hc
          · decide
          · rcases List.mem_cons.mp hc with rfl | hc
            · decide
            · exact hb c hc
      have hpip : hasPipeSep (' ' :: '|' :: ' ' :: b.data) = true :=
        (hasPipeSep_iff _).mpr ⟨[], b.data, rfl⟩
      have := matchHeadGreedy_decode hm hpip hrun
      rw [show ((' ' :: '|' :: ' ' :: b.data) ++ ' ' :: '#' :: ' ' :: d.data) =
          (' ' :: '|' :: ' ' :: (b.data ++ ' ' :: '#' :: ' ' :: d.data)) from by simp] at this
      rw [this]
      rfl
    simp only [fullRegexTest, hsdata]
    exact regexMatchICU_isSome_append hmhg

/-- Witness for the amended C4: a canonical encoder output is accepted. -/
theorem claim4_token_shape_amended_witness :
    isIcuMessage "lighthouse-core/lib/i18n/i18n.js | ms # 0" = true :=
  (claim4_token_shape_amended "lighthouse-core/lib/i18n/i18n.js | ms # 0").1.mpr
    ⟨"lighthouse-core/lib/i18n/i18n.js", "ms", "0", by decide, by decide, by decide, by decide⟩

/-- **C5, counterexample.** For the well-formed token `"a | b # 0"` and an
empty registry, resolution fails — but with the JavaScript `TypeError` from
reading `.icuMessage` off `undefined`, not with the source's "is not a
valid message instance ID" error, which is raised only when the regex does
not match. -/
theorem claim5_counterexample :
    isIcuMessage "a | b # 0" = true ∧
    emptyRegistry ValueMap "a | b" = [] ∧
    _resolveIcuMessageInstanceId (fun _ => none) (fun _ => []) (fun _ _ _ => "")
      (emptyRegistry ValueMap) "a | b # 0" "en" = .error .typeError ∧
    I18nError.typeError ≠ I18nError.notValidInstanceId := by
  refine ⟨by decide, rfl, ?_, by decide⟩
  rfl

/-- **C5, amended.** For every token matched by the full regex whose decoded
message key has no (nonempty) entry in the registry or whose decoded index
is out of range for that key's sequence, resolution fails — with the
JavaScript `TypeError` from reading a property of `undefined` (the "invalid
instance id" error is reserved for strings that fail the token pattern). -/
theorem claim5_error_amended (LOCALES : String → Option (String → Option String))
    (parse : String → List MsgElement) (render : String → String → ValueMap → String)
    (reg : Registry ValueMap) (s locale : String) (keyChars idxChars : List Char)
    (hmatch : regexMatchICU s.data = some (keyChars, idxChars))
    (hrange : (reg (String.mk keyChars)).length ≤ digitsToNat idxChars) :
    _resolveIcuMessageInstanceId LOCALES parse render reg s locale = .error .typeError := by
  simp only [_resolveIcuMessageInstanceId, hmatch]
  rw [List.get?_eq_none.mpr hrange]

/-- Witness for the amended C5. -/
theorem claim5_error_amended_witness :
    _resolveIcuMessageInstanceId (fun _ => none) (fun _ => []) (fun _ _ _ => "")
      (emptyRegistry ValueMap) "x | y # 2" "en" = .error .typeError :=
  claim5_error_amended (fun _ => none) (fun _ => []) (fun _ _ _ => "")
    (emptyRegistry ValueMap) "x | y # 2" "en" ['x', ' ', '|', ' ', 'y'] ['2']
    (by decide) (by decide)

/-- **C6.** `lookupLocale` never fails: it returns the exact supported
locale when the canonicalised tag is supported, otherwise the first match
among the progressively shorter dash-prefixes of the canonicalised tag, and
otherwise the fixed default locale `"en"`.  The canonicaliser and the
negotiation primitive are external to the repository and modelled from the
spec; under that model the function is total on every input. -/
theorem claim6_lookupLocale (canon : Option String → String) (supported : List String)
    (locale : Option String) :
    (supported.contains (canon locale) = true →
      lookupLocale canon supported locale = canon locale)
    ∧ (supported.contains (canon locale) = false →
        ∀ p, (shorterLocales (canon locale)).find? (fun q => supported.contains q) = some p →
          lookupLocale canon supported locale = p)
    ∧ (supported.contains (canon locale) = false →
        (shorterLocales (canon locale)).find? (fun q => supported.contains q) = none →
          lookupLocale canon supported locale = "en") := by
  refine ⟨?_, ?_, ?_⟩
  · intro h
    simp only [lookupLocale, lookupClosestLocale, localeCandidates]
    rw [List.find?_cons_of_pos _ h]
  · intro h p hp
    simp only [lookupLocale, lookupClosestLocale, localeCandidates]
    rw [List.find?_cons_of_neg _ (fun hc => absurd (h ▸ hc) (by decide)), hp]
  · intro h hn
    simp only [lookupLocale, lookupClosestLocale, localeCandidates]
    rw [List.find?_cons_of_neg _ (fun hc => absurd (h ▸ hc) (by decide)), hn]

/-- Witness for C6: the spec's own examples — `"de-CH-1996"` resolves to the
supported prefix `"de-CH"`, and an unmatched `"xx-ZZ"` degrades to `"en"`. -/
theorem claim6_lookupLocale_witness :
    lookupLocale (fun _ => "de-CH-1996") ["de-CH", "de", "en"] none = "de-CH" ∧
    lookupLocale (fun o => o.getD "en-US") ["de-CH", "de", "en"] (some "xx-ZZ") = "en" := by
  constructor
  · exact (claim6_lookupLocale (fun _ => "de-CH-1996") ["de-CH", "de", "en"] none).2.1
      (by decide) "de-CH" (by decide)
  · exact (claim6_lookupLocale (fun o => o.getD "en-US") ["de-CH", "de", "en"]
      (some "xx-ZZ")).2.2 (by decide) (by decide)

/-- **C10.** For every string rejected by `isIcuMessage` and every locale,
catalog, parser, renderer and registry state, `getFormatted` returns the
string itself unchanged — the result does not depend on the registry, the
catalog or the locale. -/
theorem claim10_passthrough (LOCALES : String → Option (String → Option String))
    (parse : String → List MsgElement) (render : String → String → ValueMap → String)
    (reg : Registry ValueMap) (s locale : String) (h : isIcuMessage s = false) :
    getFormatted LOCALES parse render reg s locale = .ok s := by
  simp [getFormatted, h]

/-- Witness for C10 on a plain English string. -/
theorem claim10_passthrough_witness :
    getFormatted (fun _ => none) (fun _ => []) (fun _ _ _ => "")
      (emptyRegistry ValueMap) "Potential Savings" "en" = .ok "Potential Savings" :=
  claim10_passthrough (fun _ => none) (fun _ => []) (fun _ _ _ => "")
    (emptyRegistry ValueMap) "Potential Savings" "en" (by decide)

theorem formatPathGo_error_iff (l : List String) (acc : String) :
    (∃ e, formatPathGo l acc = .error e) ↔
      ∃ p ∈ l, alphaSegment p = false ∧ hasBadPathChar p = true := by
  induction l generalizing acc with
  | nil =>
    simp [formatPathGo]
  | cons property rest ih =>
    cases ha : alphaSegment property with
    | true =>
      rw [formatPathGo, if_pos ha]
      rw [ih]
      constructor
      · rintro ⟨p, hp, h1, h2⟩
        exact ⟨p, by simp [hp], h1, h2⟩
      · rintro ⟨p, hp, h1, h2⟩
        rcases List.mem_cons.mp hp with rfl | hp
        · rw [ha] at h1; cases h1
        · exact ⟨p, hp, h1, h2⟩
    | false =>
      rw [formatPathGo, if_neg (by simp [ha])]
      cases hb : hasBadPathChar property with
      | true =>
        rw [if_pos rfl]
        constructor
        · intro _
          exact ⟨property, by simp, ha, hb⟩
        · intro _
          exact ⟨I18nError.cannotHandle property, rfl⟩
      | false =>
        rw [if_neg (by simp)]
        rw [ih]
        constructor
        · rintro ⟨p, hp, h1, h2⟩
          exact ⟨p, by simp [hp], h1, h2⟩
        · rintro ⟨p, hp, h1, h2⟩
          rcases List.mem_cons.mp hp with rfl | hp
          · rw [hb] at h2; cases h2
          · exact ⟨p, hp, h1, h2⟩

theorem formatPathGo_ok (l : List String) (acc : String)
    (h : ∀ p ∈ l, alphaSegment p = true ∨ hasBadPathChar p = false) :
    formatPathGo l acc = .ok (l.foldl pathStep acc) := by
  induction l generalizing acc with
  | nil => rfl
  | cons property rest ih =>
    have hrest : ∀ p ∈ rest, alphaSegment p = true ∨ hasBadPathChar p = false :=
      fun p hp => h p (by simp [hp])
    cases ha : alphaSegment property with
    | true =>
      rw [formatPathGo, if_pos ha, ih _ hrest, List.foldl_cons]
      rw [pathStep, if_pos ha]
    | false =>
      have hb : hasBadPathChar property = false := by
        rcases h property (by simp) with h1 | h1
        · rw [ha] at h1; cases h1
        · exact h1
      rw [formatPathGo, if_neg (by simp [ha]), if_neg (by simp [hb]), ih _ hrest,
        List.foldl_cons]
      rw [pathStep, if_neg (by simp [ha])]

/-- **C9.** `_formatPathAsString` fails with an error exactly when some
segment is not a nonempty all-letter segment (so would be bracketed) and
contains `]`, a quote, or JavaScript whitespace; on every other input it
succeeds and returns the formatted path: letter-only segments joined with
`.`, every other segment wrapped in `[...]`. -/
theorem claim9_path_format (pathInLHR : List String) :
    ((∃ e, _formatPathAsString pathInLHR = .error e) ↔
      ∃ p ∈ pathInLHR, alphaSegment p = false ∧ hasBadPathChar p = true)
    ∧ ((∀ p ∈ pathInLHR, alphaSegment p = true ∨ hasBadPathChar p = false) →
        _formatPathAsString pathInLHR = .ok (formatPathSpecStr pathInLHR)) := by
  constructor
  · exact formatPathGo_error_iff pathInLHR ""
  · intro h
    exact formatPathGo_ok pathInLHR "" h

/-- Witness for C9: format of `["a", "b1", "c"]`. -/
theorem claim9_path_format_witness :
    _formatPathAsString ["a", "b1", "c"] = .ok "a[b1].c" := by
  have h := (claim9_path_format ["a", "b1", "c"]).2 (by decide)
  rw [h]
  have : formatPathSpecStr ["a", "b1", "c"] = "a[b1].c" := by decide
  rw [this]

theorem missingValueCheck_some_of_missing {elements : List MsgElement} {values : ValueMap}
    (h : ∃ el ∈ elements, el.etype = "argumentElement" ∧ el.id ≠ "" ∧
      hasKey values el.id = false) :
    ∃ el0, missingValueCheck elements values = some el0 ∧ el0 ∈ elements ∧
      el0.etype = "argumentElement" ∧ el0.id ≠ "" ∧ hasKey values el0.id = false := by
  obtain ⟨el, hmem, hty, hid, hkey⟩ := h
  have hsome : (missingValueCheck elements values).isSome = true := by
    rw [missingValueCheck, List.find?_isSome]
    refine ⟨el, ?_, ?_⟩
    · rw [List.mem_filter]
      exact ⟨hmem, by simp [hty]⟩
    · simp [hid, hkey]
  obtain ⟨el0, hel0⟩ := Option.isSome_iff_exists.mp hsome
  have hp := List.find?_some hel0
  have hm := List.mem_of_find?_eq_some hel0
  rw [List.mem_filter] at hm
  simp only [Bool.and_eq_true, decide_eq_true_eq, Bool.not_eq_true'] at hp
  exact ⟨el0, hel0, hm.1, by simpa using hm.2, hp.1, hp.2⟩

/-- **C7.** Whenever the resolved template's parse contains a placeholder
(argument element with a nonempty id) that has no entry in the supplied
values, `_formatIcuMessage` fails with the "missing value" error naming a
missing placeholder — and it does so for *every* renderer `render`, i.e.
before any rendering is attempted. -/
theorem claim7_missing_value (LOCALES : String → Option (String → Option String))
    (parse : String → List MsgElement) (render : String → String → ValueMap → String)
    (locale icuMessageId : String) (uiStringMessage : Option String) (values : ValueMap)
    (lmsgs : String → Option String) (tmpl : String)
    (hloc : LOCALES locale = some lmsgs)
    (hmsg : chooseLocaleMessage (lmsgs icuMessageId) uiStringMessage = some tmpl)
    (hne : tmpl ≠ "")
    (hmiss : ∃ el ∈ parse tmpl, el.etype = "argumentElement" ∧ el.id ≠ "" ∧
      hasKey values el.id = false) :
    ∃ j, _formatIcuMessage LOCALES parse render locale icuMessageId uiStringMessage values
        = .error (.missingValue j)
      ∧ ∃ el ∈ parse tmpl, el.etype = "argumentElement" ∧ el.id = j ∧ j ≠ "" ∧
        hasKey values j = false := by
  obtain ⟨el0, hfind, hmem, hty, hid, hkey⟩ := missingValueCheck_some_of_missing hmiss
  refine ⟨el0.id, ?_, el0, hmem, hty, rfl, hid, hkey⟩
  rw [_formatIcuMessage, hloc]
  simp only
  rw [hmsg]
  simp only
  rw [if_neg hne]
  rw [_preprocessMessageValues, hfind]

/-- Witness for C7: a template referencing `{x}` with an empty value map. -/
theorem claim7_missing_value_witness :
    _formatIcuMessage (fun _ => some (fun _ => some "{x} ms"))
      (fun _ => [⟨"argumentElement", "x", none⟩]) (fun _ _ _ => "")
      "en" "file.js | key" none [] = .error (.missingValue "x") := by
  obtain ⟨j, hj, el, hel, -, hid, -, -⟩ :=
    claim7_missing_value (fun _ => some (fun _ => some "{x} ms"))
      (fun _ => [⟨"argumentElement", "x", none⟩]) (fun _ _ _ => "")
      "en" "file.js | key" none [] (fun _ => some "{x} ms") "{x} ms"
      rfl rfl (by decide)
      ⟨⟨"argumentElement", "x", none⟩, by simp, rfl, by decide, rfl⟩
  simp only [List.mem_singleton] at hel
  subst hel
  rw [← hid] at hj
  exact hj

theorem getVal_setVal_self (m : ValueMap) (k : String) (x : Option ℚ) :
    getVal (setVal m k x) k = x := by
  induction m with
  | nil => simp [setVal, getVal]
  | cons p rest ih =>
    by_cases h : p.1 = k
    · simp [setVal, getVal, h]
    · simp only [setVal, if_neg h]
      rw [getVal, List.find?_cons_of_neg _ (by simpa using h)]
      exact ih

theorem getVal_setVal_ne (m : ValueMap) (k k' : String) (x : Option ℚ) (h : k' ≠ k) :
    getVal (setVal m k x) k' = getVal m k' := by
  induction m with
  | nil =>
    simp only [setVal, getVal]
    rw [List.find?_cons_of_neg _ (by simpa using Ne.symm h)]
  | cons p rest ih =>
    by_cases hp : p.1 = k
    · simp only [setVal, if_pos hp]
      rw [getVal, List.find?_cons_of_neg _ (by simpa using Ne.symm h), getVal,
        List.find?_cons_of_neg _ (by simp only [decide_eq_true_eq]; intro hc; exact Ne.symm h (hp ▸ hc))]
    · simp only [setVal, if_neg hp]
      by_cases hpk : p.1 = k'
      · rw [getVal, List.find?_cons_of_pos _ (by simpa using hpk), getVal,
          List.find?_cons_of_pos _ (by simpa using hpk)]
      · rw [getVal, List.find?_cons_of_neg _ (by simpa using hpk), getVal,
          List.find?_cons_of_neg _ (by simpa using hpk)]
        exact ih

theorem foldl_pass_untouched {k : String} (f : ℚ → ℚ) (l : List MsgElement) :
    ∀ (m : ValueMap), (∀ el ∈ l, el.id ≠ k) →
      getVal (l.foldl (fun acc el => setVal acc el.id ((getVal acc el.id).map f)) m) k
        = getVal m k := by
  induction l with
  | nil => intro m _; rfl
  | cons el rest ih =>
    intro m h
    rw [List.foldl_cons, ih _ (fun e he => h e (by simp [he]))]
    exact getVal_setVal_ne _ _ _ _ (fun heq => h el (by simp) heq.symm)

theorem foldl_pass_touched {k : String} (f : ℚ → ℚ) (l1 l2 : List MsgElement)
    (el : MsgElement) (m : ValueMap)
    (h1 : ∀ e ∈ l1, e.id ≠ k) (h2 : ∀ e ∈ l2, e.id ≠ k) (hel : el.id = k) :
    getVal ((l1 ++ el :: l2).foldl
        (fun acc el => setVal acc el.id ((getVal acc el.id).map f)) m) k
      = (getVal m k).map f := by
  rw [List.foldl_append, List.foldl_cons, foldl_pass_untouched f l2 _ h2, hel,
    getVal_setVal_self, foldl_pass_untouched f l1 m h1]

theorem applyStylePass_untouched {cond : MsgElement → Bool} {f : ℚ → ℚ}
    {elements : List MsgElement} {m : ValueMap} {k : String}
    (h : ∀ el ∈ elements, cond el = true → el.id ≠ k) :
    getVal (applyStylePass cond f elements m) k = getVal m k := by
  rw [applyStylePass]
  apply foldl_pass_untouched
  intro el hel
  rw [List.mem_filter] at hel
  exact h el hel.1 hel.2

theorem applyStylePass_touched {cond : MsgElement → Bool} {f : ℚ → ℚ}
    {e1 e2 : List MsgElement} {el : MsgElement} {m : ValueMap} {k : String}
    (hcond : cond el = true) (hel : el.id = k)
    (h1 : ∀ e ∈ e1, cond e = true → e.id ≠ k) (h2 : ∀ e ∈ e2, cond e = true → e.id ≠ k) :
    getVal (applyStylePass cond f (e1 ++ el :: e2) m) k = (getVal m k).map f := by
  rw [applyStylePass, List.filter_append, List.filter_cons_of_pos hcond]
  apply foldl_pass_touched
  · intro e he
    rw [List.mem_filter] at he
    exact h1 e he.1 he.2
  · intro e he
    rw [List.mem_filter] at he
    exact h2 e he.1 he.2
  · exact hel

/-- **C8.** For every parsed template and value map accepted by the
missing-value precondition, `_preprocessMessageValues` succeeds with the
three rewrite passes applied to the values, and for a numeric value bound
to a placeholder `k` referenced with exactly one format style:
`milliseconds` rewrites it to `round(v/10)*10`; `seconds` on the
placeholder named `timeInMs` rewrites it to `round(v/100)/10`; `bytes`
rewrites it to `v/1024`; and a placeholder none of whose occurrences bears
one of those applicable styles keeps its value unchanged. -/
theorem claim8_value_rewrites (parse : String → List MsgElement) (tmpl : String)
    (values : ValueMap) (k : String) (x : ℚ)
    (hok : missingValueCheck (parse tmpl) values = none)
    (hx : getVal values k = some x) :
    (_preprocessMessageValues parse tmpl values
        = .ok (preprocessedValues (parse tmpl) values))
    ∧ (∀ e1 el e2, parse tmpl = e1 ++ el :: e2 → el.id = k →
        el.formatStyle = some "milliseconds" →
        (∀ e ∈ e1, e.id = k → e.formatStyle = none) →
        (∀ e ∈ e2, e.id = k → e.formatStyle = none) →
        getVal (preprocessedValues (parse tmpl) values) k = some (msRewrite x))
    ∧ (∀ e1 el e2, parse tmpl = e1 ++ el :: e2 → el.id = k → k = "timeInMs" →
        el.formatStyle = some "seconds" →
        (∀ e ∈ e1, e.id = k → e.formatStyle = none) →
        (∀ e ∈ e2, e.id = k → e.formatStyle = none) →
        getVal (preprocessedValues (parse tmpl) values) k = some (secRewrite x))
    ∧ (∀ e1 el e2, parse tmpl = e1 ++ el :: e2 → el.id = k →
        el.formatStyle = some "bytes" →
        (∀ e ∈ e1, e.id = k → e.formatStyle = none) →
        (∀ e ∈ e2, e.id = k → e.formatStyle = none) →
        getVal (preprocessedValues (parse tmpl) values) k = some (bytesRewrite x))
    ∧ ((∀ e ∈ parse tmpl, e.id = k →
          e.formatStyle ≠ some "milliseconds" ∧ e.formatStyle ≠ some "bytes" ∧
          (e.formatStyle = some "seconds" → k ≠ "timeInMs")) →
        getVal (preprocessedValues (parse tmpl) values) k = getVal values k) := by
  refine ⟨?_, ?_, ?_, ?_, ?_⟩
  · rw [_preprocessMessageValues, hok]
  · intro e1 el e2 hsplit hid hstyle hother1 hother2
    rw [preprocessedValues]
    rw [applyStylePass_untouched (by
      intro e he hc heq
      rw [hsplit] at he
      simp only [bytesCond, decide_eq_true_eq] at hc
      rcases List.mem_append.mp he with he | he
      · rw [hother1 e he heq] at hc; cases hc
      · rcases List.mem_cons.mp he with rfl | he
        · rw [hstyle] at hc; simp at hc
        · rw [hother2 e he heq] at hc; cases hc)]
    rw [applyStylePass_untouched (by
      intro e he hc heq
      rw [hsplit] at he
      simp only [secCond, decide_eq_true_eq] at hc
      rcases List.mem_append.mp he with he | he
      · obtain ⟨hc1, -⟩ := hc
        rw [hother1 e he heq] at hc1; cases hc1
      · rcases List.mem_cons.mp he with rfl | he
        · rw [hstyle] at hc; simp at hc
        · obtain ⟨hc1, -⟩ := hc
          rw [hother2 e he heq] at hc1; cases hc1)]
    rw [hsplit]
    rw [applyStylePass_touched (by simp [msCond, hstyle]) hid
      (by
        intro e he hc heq
        simp only [msCond, decide_eq_true_eq] at hc
        rw [hother1 e he heq] at hc; cases hc)
      (by
        intro e he hc heq
        simp only [msCond, decide_eq_true_eq] at hc
        rw [hother2 e he heq] at hc; cases hc)]
    rw [hx]
    rfl
  · intro e1 el e2 hsplit hid hk hstyle hother1 hother2
    rw [preprocessedValues]
    rw [applyStylePass_untouched (by
      intro e he hc heq
      rw [hsplit] at he
      simp only [bytesCond, decide_eq_true_eq] at hc
      rcases List.mem_append.mp he with he | he
      · rw [hother1 e he heq] at hc; cases hc
      · rcases List.mem_cons.mp he with rfl | he
        · rw [hstyle] at hc; simp at hc
        · rw [hother2 e he heq] at hc; cases hc)]
    rw [hsplit]
    rw [applyStylePass_touched (by simp [secCond, hstyle, hid, hk]) hid
      (by
        intro e he hc heq
        simp only [secCond, decide_eq_true_eq] at hc
        obtain ⟨hc1, -⟩ := hc
        rw [hother1 e he heq] at hc1; cases hc1)
      (by
        intro e he hc heq
        simp only [secCond, decide_eq_true_eq] at hc
        obtain ⟨hc1, -⟩ := hc
        rw [hother2 e he heq] at hc1; cases hc1)]
    rw [← hsplit]
    rw [applyStylePass_untouched (by
      intro e he hc heq
      rw [hsplit] at he
      simp only [msCond, decide_eq_true_eq] at hc
      rcases List.mem_append.mp he with he | he
      · rw [hother1 e he heq] at hc; cases hc
      · rcases List.mem_cons.mp he with rfl | he
        · rw [hstyle] at hc; simp at hc
        · rw [hother2 e he heq] at hc; cases hc)]
    rw [hx]
    rfl
  · intro e1 el e2 hsplit hid hstyle hother1 hother2
    rw [preprocessedValues]
    rw [hsplit]
    rw [applyStylePass_touched (by simp [bytesCond, hstyle]) hid
      (by
        intro e he hc heq
        simp only [bytesCond, decide_eq_true_eq] at hc
        rw [hother1 e he heq] at hc; cases hc)
      (by
        intro e he hc heq
        simp only [bytesCond, decide_eq_true_eq] at hc
        rw [hother2 e he heq] at hc; cases hc)]
    rw [← hsplit]
    rw [applyStylePass_untouched (by
      intro e he hc heq
      rw [hsplit] at he
      simp only [secCond, decide_eq_true_eq] at hc
      rcases List.mem_append.mp he with he | he
      · obtain ⟨hc1, -⟩ := hc
        rw [hother1 e he heq] at hc1; cases hc1
      · rcases List.mem_cons.mp he with rfl | he
        · rw [hstyle] at hc; simp at hc
        · obtain ⟨hc1, -⟩ := hc
          rw [hother2 e he heq] at hc1; cases hc1)]
    rw [applyStylePass_untouched (by
      intro e he hc heq
      rw [hsplit] at he
      simp only [msCond, decide_eq_true_eq] at hc
      rcases List.mem_append.mp he with he | he
      · rw [hother1 e he heq] at hc; cases hc
      · rcases List.mem_cons.mp he with rfl | he
        · rw [hstyle] at hc; simp at hc
        · rw [hother2 e he heq] at hc; cases hc)]
    rw [hx]
    rfl
  · intro h
    rw [preprocessedValues]
    rw [applyStylePass_untouched (by
      intro e he hc heq
      simp only [bytesCond, decide_eq_true_eq] at hc
      exact (h e he heq).2.1 hc)]
    rw [applyStylePass_untouched (by
      intro e he hc heq
      simp only [secCond, decide_eq_true_eq] at hc
      exact (h e he heq).2.2 hc.1 (heq ▸ hc.2))]
    rw [applyStylePass_untouched (by
      intro e he hc heq
      simp only [msCond, decide_eq_true_eq] at hc
      exact (h e he heq).1 hc)]

/-- Witness for C8: the spec's own milliseconds example, `1234 ↦ 1230`. -/
theorem claim8_value_rewrites_witness :
    getVal (preprocessedValues [⟨"argumentElement", "wastedMs", some "milliseconds"⟩]
      [("wastedMs", some 1234)]) "wastedMs" = some 1230 := by
  have h := (claim8_value_rewrites (fun _ => [⟨"argumentElement", "wastedMs",
      some "milliseconds"⟩]) "tmpl" [("wastedMs", some 1234)] "wastedMs" 1234
      (by decide) (by decide)).2.1
      [] ⟨"argumentElement", "wastedMs", some "milliseconds"⟩ [] rfl rfl rfl
      (by intro e he; simp at he) (by intro e he; simp at he)
  rw [h]
  have : msRewrite 1234 = 1230 := by
    rw [msRewrite, jsRound]
    norm_num
  rw [this]

end I18n
